import Mathlib

/-!
A shallow embedding of the class-list formatter and source-text extraction
engine of `eslint-plugin-simple-tailwindcss` (`src/src/config/group-definitions.ts`).

Strings are modelled as `List Char`.  JavaScript's `RegExp` objects are
modelled by their observable behaviour: a matcher produced by `new RegExp(p)`
for a group pattern `p` is a predicate `List Char → Bool` supplied by a
compilation oracle `sem : String → Option (List Char → Bool)` (`none` models a
pattern that `new RegExp` rejects with a `SyntaxError`), and a global regex
used by the extraction engine is modelled by its `exec` behaviour (an
`Engine`, below).  `String.prototype.localeCompare` is modelled as code-point
lexicographic comparison returning -1/0/1.  The per-call memoization cache of
`normalizeToken` is dropped: the cache is only ever filled by `normalizeToken`
itself, so it is semantically transparent.
-/

namespace STW

/-- Characters matched by the JavaScript regex class `\s` (and removed by
`String.prototype.trim`): the source's `WHITESPACE_RE = /\s+/`. -/
def isJsWs (c : Char) : Bool :=
  (c == ' ') || (c == '\t') || (c == '\n') || (c.val == 11) || (c.val == 12) ||
  (c == '\r') || (c.val == 0xa0) || (c.val == 0x1680) ||
  (0x2000 ≤ c.val && c.val ≤ 0x200a) || (c.val == 0x2028) || (c.val == 0x2029) ||
  (c.val == 0x202f) || (c.val == 0x205f) || (c.val == 0x3000) || (c.val == 0xfeff)

/-- JavaScript `value.trim()`: strip whitespace from both ends. -/
def trimJS (l : List Char) : List Char :=
  ((l.dropWhile isJsWs).reverse.dropWhile isJsWs).reverse

/-- JavaScript `value.replace(WHITESPACE_RE, ' ')` where `WHITESPACE_RE = /\s+/`
has no `g` flag: only the first (leftmost, maximal) whitespace run is replaced
by a single space; the rest of the string is left untouched. -/
def replaceFirstWs : List Char → List Char
  | [] => []
  | c :: rest =>
    if isJsWs c then ' ' :: rest.dropWhile isJsWs
    else c :: replaceFirstWs rest

/-- Source `collapseWhitespace`: `value.trim().replace(WHITESPACE_RE, ' ')`. -/
def collapseWhitespace (value : List Char) : List Char :=
  replaceFirstWs (trimJS value)

/-- Model of `a.localeCompare(b)`: code-point lexicographic comparison,
returning -1/0/1. -/
def lcmp : List Char → List Char → Int
  | [], [] => 0
  | [], _ :: _ => -1
  | _ :: _, [] => 1
  | a :: as, b :: bs => if a < b then -1 else if b < a then 1 else lcmp as bs

/-- Source `removeImportantPrefix`: a leading `!` marks the token important. -/
def removeImportantPrefix (token : List Char) : Bool × List Char :=
  match token with
  | '!' :: rest => (true, rest)
  | _ => (false, token)

/-- One step of the bracket-depth bookkeeping of the `stripVariants` loop:
`]` increments the depth, `[` decrements it but never below 0, every other
character (including `:`) leaves it unchanged. -/
def svDepth (d : Nat) (c : Char) : Nat :=
  if c = ']' then d + 1
  else if c = '[' then (if 0 < d then d - 1 else d)
  else d

/-- The `stripVariants` loop, scanning the reversed token (i.e. the original
token right to left).  `acc` is the part of the token already scanned (in
original order, i.e. the suffix to the right of the current position);
`some acc` is returned at the first `:` seen at bracket depth 0. -/
def svGo : List Char → Nat → List Char → Option (List Char)
  | [], _, _ => none
  | c :: rest, depth, acc =>
    if c = ']' then svGo rest (depth + 1) (c :: acc)
    else if c = '[' then svGo rest (if 0 < depth then depth - 1 else depth) (c :: acc)
    else if c = ':' then
      (if depth = 0 then some acc else svGo rest depth (c :: acc))
    else svGo rest depth (c :: acc)

/-- Source `stripVariants`: scan from the end tracking bracket depth; return
everything after the first `:` found at depth 0, or the whole token. -/
def stripVariants (token : List Char) : List Char :=
  (svGo token.reverse 0 []).getD token

/-- Source `TailwindGroupDefinition`: a named ordered list of matcher
pattern strings. -/
structure GroupDefinition where
  name : String
  matchers : List String

/-- Source `CompiledGroupDefinition`: compiled matchers plus the group's
weight (its index in the registry). -/
structure CompiledGroup where
  name : String
  weight : Nat
  regexes : List (List Char → Bool)

/-- `matchers.map(pattern => new RegExp(pattern))` under the compilation
oracle `sem`; the first invalid pattern aborts compilation, and the thrown
`SyntaxError` is modelled as carrying that pattern string (and nothing
else - in particular not the group name). -/
def compileMatchers (sem : String → Option (List Char → Bool)) :
    List String → Except String (List (List Char → Bool))
  | [] => .ok []
  | p :: ps =>
    match sem p with
    | none => .error p
    | some r =>
      match compileMatchers sem ps with
      | .error e => .error e
      | .ok rs => .ok (r :: rs)

/-- The indexed map of `compileGroupDefinitions`: group at position `i` gets
`weight := i`. -/
def compileGroupsFrom (sem : String → Option (List Char → Bool)) (i : Nat) :
    List GroupDefinition → Except String (List CompiledGroup)
  | [] => .ok []
  | d :: ds =>
    match compileMatchers sem d.matchers with
    | .error e => .error e
    | .ok rs =>
      match compileGroupsFrom sem (i + 1) ds with
      | .error e => .error e
      | .ok gs => .ok (⟨d.name, i, rs⟩ :: gs)

/-- Source `compileGroupDefinitions`: map each definition, in order, to a
compiled group with `weight = index`. -/
def compileGroupDefinitions (sem : String → Option (List Char → Bool))
    (defs : List GroupDefinition) : Except String (List CompiledGroup) :=
  compileGroupsFrom sem 0 defs

/-- The `for`-loop of `resolveGroupWeight`: first group any of whose regexes
tests true wins; `total` is `compiledGroups.length`, returned when none do. -/
def rgwGo (token : List Char) (total : Nat) : List CompiledGroup → Nat
  | [] => total
  | g :: gs =>
    if g.regexes.any (fun r => r token) then g.weight else rgwGo token total gs

/-- Source `resolveGroupWeight`. -/
def resolveGroupWeight (token : List Char) (compiledGroups : List CompiledGroup) : Nat :=
  rgwGo token compiledGroups.length compiledGroups

/-- Source `NormalizedToken`. -/
structure NormalizedToken where
  important : Bool
  base : List Char
  groupWeight : Nat
  deriving DecidableEq

/-- Source `normalizeToken` (the memoization cache dropped, see the file
comment). -/
def normalizeToken (token : List Char) (compiledGroups : List CompiledGroup) :
    NormalizedToken :=
  let importantStrip := removeImportantPrefix token
  let base := stripVariants importantStrip.2
  { important := importantStrip.1
    base := base
    groupWeight := resolveGroupWeight base compiledGroups }

/-- Source `compareClasses`: group weight difference, then `localeCompare` of
the normalized bases, then importance (important sorts after), then
`localeCompare` of the original tokens. -/
def compareClasses (a b : List Char) (compiledGroups : List CompiledGroup) : Int :=
  let na := normalizeToken a compiledGroups
  let nb := normalizeToken b compiledGroups
  if na.groupWeight ≠ nb.groupWeight then
    (na.groupWeight : Int) - (nb.groupWeight : Int)
  else
    let baseComparison := lcmp na.base nb.base
    if baseComparison ≠ 0 then baseComparison
    else if na.important ≠ nb.important then (if na.important then 1 else -1)
    else lcmp a b

/-- JavaScript `collapsed.split(' ')`: split on every single space character
(empty pieces kept, as in JS). -/
def splitOnSpace : List Char → List (List Char)
  | [] => [[]]
  | c :: rest =>
    if c = ' ' then [] :: splitOnSpace rest
    else
      match splitOnSpace rest with
      | [] => [[c]]
      | t :: ts => (c :: t) :: ts

/-- JavaScript `tokens.join(' ')`. -/
def joinSp : List (List Char) → List Char
  | [] => []
  | [t] => t
  | t :: ts => t ++ ' ' :: joinSp ts

/-- Insertion of a token into an already sorted list, used to model
`Array.prototype.sort` with the `compareClasses` comparator.  The comparator
is a total order (see the C1 theorem), so every comparison sort produces this
same unique sorted permutation; stability is immaterial. -/
def insertToken (gs : List CompiledGroup) (x : List Char) :
    List (List Char) → List (List Char)
  | [] => [x]
  | y :: ys =>
    if compareClasses x y gs ≤ 0 then x :: y :: ys else y :: insertToken gs x ys

/-- `[...tokens].sort((a, b) => compareClasses(a, b, ...))`. -/
def sortTokens (gs : List CompiledGroup) : List (List Char) → List (List Char)
  | [] => []
  | x :: xs => insertToken gs x (sortTokens gs xs)

/-- Splitting on whitespace runs (used only by the conflict-resolver model
below): JS-style split on every `\s` character, empty pieces kept. -/
def splitAnyWs : List Char → List (List Char)
  | [] => [[]]
  | c :: rest =>
    if isJsWs c then [] :: splitAnyWs rest
    else
      match splitAnyWs rest with
      | [] => [[c]]
      | t :: ts => (c :: t) :: ts

/-- Keep only the last of any mutually-conflicting tokens: a token is dropped
exactly when a later token conflicts with it. -/
def keepLast (conflict : List Char → List Char → Bool) :
    List (List Char) → List (List Char)
  | [] => []
  | t :: ts =>
    if ts.any (fun u => conflict t u) then keepLast conflict ts
    else t :: keepLast conflict ts

/-- Modelled from the spec: the external conflict resolver (`twMerge` from the
`tailwind-merge` package, not part of this repository).  Per spec section 6 it
accepts whitespace-joined tokens, returns a whitespace-joined string
preserving only the last of any mutually-conflicting utility tokens, and is
total.  `conflict` is the (opaque) conflict relation between utility
tokens. -/
def twMergeModel (conflict : List Char → List Char → Bool) (s : List Char) :
    List Char :=
  joinSp (keepLast conflict ((splitAnyWs s).filter (· ≠ [])))

/-- Source `formatWithGroups`, parametrized by the external conflict resolver
`twm` (the source's imported `twMerge`). -/
def formatWithGroups (value : List Char) (compiledGroups : List CompiledGroup)
    (twm : List Char → List Char) : Option (List Char) :=
  let collapsed := collapseWhitespace value
  if collapsed = [] then none
  else
    let tokens := (splitOnSpace collapsed).filter (· ≠ [])
    if tokens.length ≤ 1 then (if collapsed = value then none else some collapsed)
    else
      let sortedTokens := sortTokens compiledGroups tokens
      let merged := collapseWhitespace (twm (joinSp sortedTokens))
      if merged = collapsed then (if collapsed = value then none else some collapsed)
      else some merged

/-! ## The extraction engine (`src/src/config/group-definitions.ts`, second rule file) -/

/-- Source `RangeMatch`: `{ range: [start, stop], value }`. -/
structure RangeMatch where
  start : Nat
  stop : Nat
  value : List Char
  deriving DecidableEq

/-- The observable result of one `regex.exec(text)` call of a global regex:
match index, matched text, capture group 1 (if the pattern has one and it
participated).  `capIdx` is ghost data for specification only: the offset
inside `matched` at which group 1 actually matched.  A JS `RegExpExecArray`
does not expose this offset and the embedded code never reads it. -/
structure ExecResult where
  index : Nat
  matched : List Char
  cap1 : Option (List Char)
  capIdx : Option Nat
  deriving DecidableEq

/-- A global regex, modelled by its `exec` behaviour: given the text and the
current `lastIndex`, the first match at or after it. -/
def Engine := List Char → Nat → Option ExecResult

/-- `beginsWith l p`: does `l` start with `p`? -/
def beginsWith : List Char → List Char → Bool
  | _, [] => true
  | [], _ :: _ => false
  | c :: cs, p :: ps => c == p && beginsWith cs ps

/-- JS `l.indexOf(pat)` as an option: the first index at which `pat` occurs
in `l`. -/
def idxOfSub (pat : List Char) : List Char → Option Nat
  | [] => if beginsWith [] pat then some 0 else none
  | c :: rest =>
    if beginsWith (c :: rest) pat then some 0
    else (idxOfSub pat rest).map (· + 1)

/-- Source `findCaptureOffset`: `fullMatch.indexOf(capture)`, and 0 when the
capture does not occur in the full match. -/
def findCaptureOffset (fullMatch capture : List Char) : Nat :=
  (idxOfSub capture fullMatch).getD 0

/-- JS `text.slice(a, b)` for `a ≤ b` (both clamped to the length). -/
def sliceJs (l : List Char) (a b : Nat) : List Char :=
  (l.drop a).take (b - a)

/-- The scan loop of `findMatchingParenIndex`: `i` is the absolute index of
the head of the remaining list, `depth` the parenthesis depth, `inStr` the
active quote character, `escaped` the backslash-escape flag. -/
def fmpGo : List Char → Nat → Int → Option Char → Bool → Option Nat
  | [], _, _, _, _ => none
  | ch :: rest, i, depth, inStr, escaped =>
    match inStr with
    | some q =>
      fmpGo rest (i + 1) depth (if ¬ escaped ∧ ch = q then none else some q)
        (decide (¬ escaped ∧ ch = '\\'))
    | none =>
      if ch = '"' ∨ ch = '\'' ∨ ch = '`' then fmpGo rest (i + 1) depth (some ch) false
      else if ch = '(' then fmpGo rest (i + 1) (depth + 1) none escaped
      else if ch = ')' then
        (if depth - 1 = 0 then some i else fmpGo rest (i + 1) (depth - 1) none escaped)
      else fmpGo rest (i + 1) depth none escaped

/-- Source `findMatchingParenIndex`: scan forward from the character after
the opening parenthesis, depth starting at 1, quoted regions opaque; `none`
models the source's `-1`. -/
def findMatchingParenIndex (text : List Char) (openParenIndex : Nat) : Option Nat :=
  fmpGo (text.drop (openParenIndex + 1)) (openParenIndex + 1) 1 none false

/-- A quoted string literal found by `extractStringLiterals`:
`{ value, start, end }` of the source (`stop` for `end`). -/
structure StrLit where
  value : List Char
  start : Nat
  stop : Nat
  deriving DecidableEq

/-- The inner loop of `extractStringLiterals`: scan for the closing quote `q`
not preceded by a backslash; `prev` is the previous character, `acc` the
(reversed) literal value so far.  Returns the value, the index of the closing
quote, and the remaining text after it. -/
def eslInner : List Char → Nat → Char → Char → List Char →
    Option (List Char × Nat × List Char)
  | [], _, _, _, _ => none
  | c :: rest, i, q, prev, acc =>
    if c = q ∧ prev ≠ '\\' then some (acc.reverse, i, rest)
    else eslInner rest (i + 1) q c (c :: acc)

/-- The outer loop of `extractStringLiterals` (fuelled; the top-level wrapper
supplies more fuel than the scan can consume). -/
def eslOuter : Nat → List Char → Nat → List StrLit
  | 0, _, _ => []
  | _ + 1, [], _ => []
  | fuel + 1, c :: rest, i =>
    if c = '"' ∨ c = '\'' ∨ c = '`' then
      match eslInner rest (i + 1) c c [] with
      | some (val, close, rest2) => ⟨val, i + 1, close⟩ :: eslOuter fuel rest2 (close + 1)
      | none => []
    else eslOuter fuel rest (i + 1)

/-- Source `extractStringLiterals`: every quoted literal (value without the
surrounding quotes), respecting a backslash before the closing quote; an
unclosed literal is not reported and ends the scan. -/
def extractStringLiterals (text : List Char) : List StrLit :=
  eslOuter (text.length + 2) text 0

/-- The loop of `processInnerMatches`: `lastIndex` of the inner regex, `seen`
the `processedRanges` set (fresh per call, i.e. per outer match), `acc` the
matches emitted so far, in order. -/
def pimGo (ie : Engine) (target : List Char) (containerOffset : Nat)
    (text : List Char) :
    Nat → Nat → List (Nat × Nat) → List RangeMatch → List RangeMatch
  | 0, _, _, acc => acc
  | fuel + 1, lastIndex, seen, acc =>
    match ie target lastIndex with
    | none => acc
    | some r =>
      if r.matched = [] then pimGo ie target containerOffset text fuel (r.index + 1) seen acc
      else
        let innerValue := r.cap1.getD r.matched
        let innerOffset := r.index + findCaptureOffset r.matched innerValue
        let start := containerOffset + innerOffset
        let stop := start + innerValue.length
        let nextLi := r.index + r.matched.length
        if (start, stop) ∈ seen then pimGo ie target containerOffset text fuel nextLi seen acc
        else
          pimGo ie target containerOffset text fuel nextLi ((start, stop) :: seen)
            (acc ++ [⟨start, stop, sliceJs text start stop⟩])

/-- Source `processInnerMatches` (its returned `matched` flag is dead in the
embedded rule file and dropped here): run the inner regex over the container
with `lastIndex` reset to 0, emitting one `RangeMatch` per inner match not
already seen at the same exact range in this call. -/
def processInnerMatches (ie : Engine) (target : List Char) (containerOffset : Nat)
    (text : List Char) : List RangeMatch :=
  pimGo ie target containerOffset text (target.length + 2) 0 [] []

/-- The `while (true)` loop of `applyRegexEntry` (fuelled). -/
def areGo (oe : Engine) (ie : Option Engine) (text : List Char) :
    Nat → Nat → List RangeMatch → List RangeMatch
  | 0, _, acc => acc
  | fuel + 1, lastIndex, acc =>
    match oe text lastIndex with
    | none => acc
    | some r =>
      if r.matched = [] then areGo oe ie text fuel (r.index + 1) acc
      else
        let liEnd := r.index + r.matched.length
        match idxOfSub ['('] r.matched with
        | none => areGo oe ie text fuel liEnd acc
        | some openRel =>
          let openAbs := r.index + openRel
          match findMatchingParenIndex text openAbs with
          | none => areGo oe ie text fuel liEnd acc
          | some closeAbs =>
            let containerOffset := openAbs + 1
            let container := sliceJs text containerOffset closeAbs
            match ie with
            | some inner =>
              areGo oe ie text fuel liEnd
                (acc ++ processInnerMatches inner container containerOffset text)
            | none =>
              let lits := extractStringLiterals container
              if lits ≠ [] then
                areGo oe ie text fuel liEnd
                  (acc ++ lits.map fun l =>
                    ⟨containerOffset + l.start, containerOffset + l.stop, l.value⟩)
              else
                areGo oe ie text fuel liEnd
                  (acc ++ [⟨containerOffset, containerOffset + container.length,
                    sliceJs text containerOffset (containerOffset + container.length)⟩])

/-- Source `applyRegexEntry`: repeatedly exec the outer regex; for each
non-empty match locate the first `(` in the matched text, delimit the
balanced argument region, and either run the inner regex over it or fall back
to literal extraction (or the whole region).  Matches are collected in
emission order. -/
def applyRegexEntry (oe : Engine) (ie : Option Engine) (text : List Char) :
    List RangeMatch :=
  areGo oe ie text (text.length + 2) 0 []

/-- A generic scanner turning a single-position matcher into a global regex's
`exec`: the first position at or after `lastIndex` where `tryAt` matches. -/
def scanFrom (tryAt : List Char → Nat → Option ExecResult) :
    List Char → Nat → Option ExecResult
  | [], i => tryAt [] i
  | l@(_ :: rest), i =>
    match tryAt l i with
    | some r => some r
    | none => scanFrom tryAt rest (i + 1)

/-- Does `/cn\(([^)]*)\)/` match at this position: literal `cn(`, then the
maximal run of non-`)` characters (group 1, at offset 3), then `)`. -/
def cnTryAt (l : List Char) (i : Nat) : Option ExecResult :=
  if beginsWith l ['c', 'n', '('] then
    let tl := l.drop 3
    let body := tl.takeWhile (· ≠ ')')
    if body.length < tl.length then
      some ⟨i, 'c' :: 'n' :: '(' :: (body ++ [')']), some body, some 3⟩
    else none
  else none

/-- Model of the `exec` behaviour of `createRegExp("cn\\(([^)]*)\\)")`, the
outer pattern of the default `cn` locator entry. -/
def cnExec : Engine := fun text start => scanFrom cnTryAt (text.drop start) start

/-- Is `c` one of the three JS quote characters? -/
def isQuote (c : Char) : Bool :=
  c == '"' || c == '\'' || c == '`'

/-- Does the quoted-string pattern `["'\x60]([^"'\x60]+)["'\x60]` match at
this position: a quote, then a non-empty maximal run of non-quote characters
(group 1, at offset 1), then any quote. -/
def quotedTryAt (l : List Char) (i : Nat) : Option ExecResult :=
  match l with
  | [] => none
  | c :: rest =>
    if isQuote c then
      let run := rest.takeWhile (fun d => ¬ isQuote d)
      if run ≠ [] ∧ run.length < rest.length then
        some ⟨i, c :: (run ++ [((rest.drop run.length).headD c)]), some run, some 1⟩
      else none
    else none

/-- Model of the `exec` behaviour of `createRegExp(STRING_ARGUMENT_REGEX)`,
the quoted-string inner pattern of the default locator entries. -/
def quotedExec : Engine := fun text start => scanFrom quotedTryAt (text.drop start) start

/-! ## The default group registry

`defaultGroupDefinitions` carries the exact matcher pattern strings of the
source; `defaultSem` gives each of those patterns its `RegExp.test`
semantics, hand-translated pattern by pattern (every default pattern is
`^`-anchored, so `test` is matching at the start of the token). -/

/-- `^pat` for a literal `pat`: the token starts with it. -/
def sw (p : String) (t : List Char) : Bool := beginsWith t p.data

/-- `^pat$` for a literal `pat`: the token is exactly it. -/
def exactly (p : String) (t : List Char) : Bool := t == p.data

/-- One of several exact alternatives: `^(?:a|b|...)$`. -/
def exactOf (ps : List String) (t : List Char) : Bool := ps.any (fun p => t == p.data)

/-- One of several literal prefixes: `^(?:a|b|...)` (each alternative a
literal). -/
def swOf (ps : List String) (t : List Char) : Bool := ps.any (fun p => beginsWith t p.data)

/-- The regex tail `(?:-|$)`: next is a dash or the end of the token. -/
def dashOrEnd : List Char → Bool
  | [] => true
  | c :: _ => c == '-'

/-- `^(?:a|b|...)(?:-|$)` with literal alternatives. -/
def wordDashOrEnd (ps : List String) (t : List Char) : Bool :=
  ps.any (fun p => beginsWith t p.data && dashOrEnd (t.drop p.length))

/-- `[trblxy]`. -/
def isTrblxy (c : Char) : Bool :=
  c == 't' || c == 'r' || c == 'b' || c == 'l' || c == 'x' || c == 'y'

/-- The tail `[trblxy]?(?:-|$)` of the spacing patterns. -/
def trblxyDashOrEnd (l : List Char) : Bool :=
  dashOrEnd l ||
    (match l with
     | c :: rest => isTrblxy c && dashOrEnd rest
     | [] => false)

/-- `^-?m[trblxy]?(?:-|$)` and `^-?p[trblxy]?(?:-|$)`: optional minus, the
letter, an optional side/axis letter, then a dash or the end. -/
def marginPat (letter : Char) (t : List Char) : Bool :=
  let u := match t with
    | '-' :: rest => rest
    | _ => t
  match u with
  | c :: rest => c == letter && trblxyDashOrEnd rest
  | [] => false

/-- `^scroll-[mp][trblxy]?(?:-|$)`. -/
def scrollMpPat (t : List Char) : Bool :=
  beginsWith t "scroll-".data &&
    (match t.drop 7 with
     | c :: rest => (c == 'm' || c == 'p') && trblxyDashOrEnd rest
     | [] => false)

/-- `^scroll-(?![mp])`: `scroll-` not followed by `m` or `p` (the negative
lookahead succeeds at the end of the token). -/
def scrollNotMpPat (t : List Char) : Bool :=
  beginsWith t "scroll-".data &&
    (match t.drop 7 with
     | c :: _ => !(c == 'm' || c == 'p')
     | [] => true)

/-- `RegExp.test` semantics for each matcher pattern string of the default
group registry, hand-translated from the pattern (all are `^`-anchored). -/
def defaultSem (p : String) : Option (List Char → Bool) :=
  match p with
  | "^container$" => some (exactly "container")
  | "^box-(?:border|content)$" => some (exactOf ["box-border", "box-content"])
  | "^columns-" => some (sw "columns-")
  | "^break-(?:after|before|inside)-" =>
    some (swOf ["break-after-", "break-before-", "break-inside-"])
  | "^box-decoration-" => some (sw "box-decoration-")
  | "^(?:block|inline-block|inline|flex|inline-flex|grid|inline-grid|table|inline-table|table-caption|table-cell|table-column|table-row|flow-root|contents|list-item|hidden)$" =>
    some (exactOf ["block", "inline-block", "inline", "flex", "inline-flex", "grid",
      "inline-grid", "table", "inline-table", "table-caption", "table-cell",
      "table-column", "table-row", "flow-root", "contents", "list-item", "hidden"])
  | "^float-" => some (sw "float-")
  | "^clear-" => some (sw "clear-")
  | "^isolation-" => some (sw "isolation-")
  | "^object-" => some (sw "object-")
  | "^overflow-" => some (sw "overflow-")
  | "^overscroll-" => some (sw "overscroll-")
  | "^scroll-(?![mp])" => some scrollNotMpPat
  | "^(?:static|fixed|absolute|relative|sticky)$" =>
    some (exactOf ["static", "fixed", "absolute", "relative", "sticky"])
  | "^(?:top|right|bottom|left|inset)(?:-|$)" =>
    some (wordDashOrEnd ["top", "right", "bottom", "left", "inset"])
  | "^(?:start|end)(?:-|$)" => some (wordDashOrEnd ["start", "end"])
  | "^z-" => some (sw "z-")
  | "^visibility$" => some (exactly "visibility")
  | "^flex-" => some (sw "flex-")
  | "^basis-" => some (sw "basis-")
  | "^grow-?" => some (sw "grow")
  | "^shrink-?" => some (sw "shrink")
  | "^grid-" => some (sw "grid-")
  | "^auto-cols-" => some (sw "auto-cols-")
  | "^auto-rows-" => some (sw "auto-rows-")
  | "^col-(?:auto|span|start|end)" =>
    some (swOf ["col-auto", "col-span", "col-start", "col-end"])
  | "^row-(?:auto|span|start|end)" =>
    some (swOf ["row-auto", "row-span", "row-start", "row-end"])
  | "^gap-" => some (sw "gap-")
  | "^place-(?:content|items|self)-" =>
    some (swOf ["place-content-", "place-items-", "place-self-"])
  | "^justify-" => some (sw "justify-")
  | "^content-" => some (sw "content-")
  | "^items-" => some (sw "items-")
  | "^self-" => some (sw "self-")
  | "^order-" => some (sw "order-")
  | "^-?m[trblxy]?(?:-|$)" => some (marginPat 'm')
  | "^-?p[trblxy]?(?:-|$)" => some (marginPat 'p')
  | "^space-[xy]-" => some (swOf ["space-x-", "space-y-"])
  | "^divide-[xy]-" => some (swOf ["divide-x-", "divide-y-"])
  | "^scroll-[mp][trblxy]?(?:-|$)" => some scrollMpPat
  | "^w-" => some (sw "w-")
  | "^min-w-" => some (sw "min-w-")
  | "^max-w-" => some (sw "max-w-")
  | "^h-" => some (sw "h-")
  | "^min-h-" => some (sw "min-h-")
  | "^max-h-" => some (sw "max-h-")
  | "^size-" => some (sw "size-")
  | "^font-" => some (sw "font-")
  | "^text-" => some (sw "text-")
  | "^tracking-" => some (sw "tracking-")
  | "^leading-" => some (sw "leading-")
  | "^list-" => some (sw "list-")
  | "^placeholder-" => some (sw "placeholder-")
  | "^align-" => some (sw "align-")
  | "^whitespace-" => some (sw "whitespace-")
  | "^break-(?:normal|words|all)$" =>
    some (exactOf ["break-normal", "break-words", "break-all"])
  | "^hyphens-" => some (sw "hyphens-")
  | "^indent-" => some (sw "indent-")
  | "^(?:normal-case|uppercase|lowercase|capitalize)$" =>
    some (exactOf ["normal-case", "uppercase", "lowercase", "capitalize"])
  | "^subpixel-antialiased$" => some (exactly "subpixel-antialiased")
  | "^antialiased$" => some (exactly "antialiased")
  | "^decoration-" => some (sw "decoration-")
  | "^underline$" => some (exactly "underline")
  | "^bg-" => some (sw "bg-")
  | "^from-" => some (sw "from-")
  | "^via-" => some (sw "via-")
  | "^to-" => some (sw "to-")
  | "^gradient-" => some (sw "gradient-")
  | "^accent-" => some (sw "accent-")
  | "^border" => some (sw "border")
  | "^rounded" => some (sw "rounded")
  | "^outline-" => some (sw "outline-")
  | "^ring-" => some (sw "ring-")
  | "^ring-offset-" => some (sw "ring-offset-")
  | "^shadow" => some (sw "shadow")
  | "^opacity-" => some (sw "opacity-")
  | "^mix-blend-" => some (sw "mix-blend-")
  | "^bg-blend-" => some (sw "bg-blend-")
  | "^drop-shadow-" => some (sw "drop-shadow-")
  | "^blur-" => some (sw "blur-")
  | "^brightness-" => some (sw "brightness-")
  | "^contrast-" => some (sw "contrast-")
  | "^grayscale" => some (sw "grayscale")
  | "^hue-rotate-" => some (sw "hue-rotate-")
  | "^invert" => some (sw "invert")
  | "^saturate-" => some (sw "saturate-")
  | "^sepia" => some (sw "sepia")
  | "^backdrop-" => some (sw "backdrop-")
  | "^table-" => some (sw "table-")
  | "^caption-" => some (sw "caption-")
  | "^border-(?:collapse|separate)$" =>
    some (exactOf ["border-collapse", "border-separate"])
  | "^transform(-gpu)?$" => some (exactOf ["transform", "transform-gpu"])
  | "^origin-" => some (sw "origin-")
  | "^scale-" => some (sw "scale-")
  | "^rotate-" => some (sw "rotate-")
  | "^translate-" => some (sw "translate-")
  | "^skew-" => some (sw "skew-")
  | "^motion-(?:safe|reduce)" => some (swOf ["motion-safe", "motion-reduce"])
  | "^perspective-" => some (sw "perspective-")
  | "^transition" => some (sw "transition")
  | "^duration-" => some (sw "duration-")
  | "^ease-" => some (sw "ease-")
  | "^delay-" => some (sw "delay-")
  | "^animate-" => some (sw "animate-")
  | "^appearance-" => some (sw "appearance-")
  | "^cursor-" => some (sw "cursor-")
  | "^caret-" => some (sw "caret-")
  | "^pointer-events-" => some (sw "pointer-events-")
  | "^resize-" => some (sw "resize-")
  | "^scroll-(?:smooth|auto)$" => some (exactOf ["scroll-smooth", "scroll-auto"])
  | "^touch-" => some (sw "touch-")
  | "^select-" => some (sw "select-")
  | "^will-change-" => some (sw "will-change-")
  | "^snap-" => some (sw "snap-")
  | "^fill-" => some (sw "fill-")
  | "^stroke-" => some (sw "stroke-")
  | "^sr-only$" => some (exactly "sr-only")
  | "^not-sr-only$" => some (exactly "not-sr-only")
  | "^aria-" => some (sw "aria-")
  | "^data-" => some (sw "data-")
  | _ => none

/-- Source `defaultGroupDefinitions` (`src/src/config/group-definitions.ts`,
lines 14-207): the 15 default groups with their matcher pattern strings,
verbatim. -/
def defaultGroupDefinitions : List GroupDefinition :=
  [ ⟨"layout",
     ["^container$", "^box-(?:border|content)$", "^columns-",
      "^break-(?:after|before|inside)-", "^box-decoration-",
      "^(?:block|inline-block|inline|flex|inline-flex|grid|inline-grid|table|inline-table|table-caption|table-cell|table-column|table-row|flow-root|contents|list-item|hidden)$",
      "^float-", "^clear-", "^isolation-", "^object-", "^overflow-",
      "^overscroll-", "^scroll-(?![mp])", "^(?:static|fixed|absolute|relative|sticky)$",
      "^(?:top|right|bottom|left|inset)(?:-|$)", "^(?:start|end)(?:-|$)", "^z-",
      "^visibility$"]⟩,
    ⟨"flex-grid",
     ["^flex-", "^basis-", "^grow-?", "^shrink-?", "^grid-", "^auto-cols-",
      "^auto-rows-", "^col-(?:auto|span|start|end)", "^row-(?:auto|span|start|end)",
      "^gap-", "^place-(?:content|items|self)-", "^justify-", "^content-",
      "^items-", "^self-", "^order-"]⟩,
    ⟨"spacing",
     ["^-?m[trblxy]?(?:-|$)", "^-?p[trblxy]?(?:-|$)", "^space-[xy]-",
      "^divide-[xy]-", "^scroll-[mp][trblxy]?(?:-|$)"]⟩,
    ⟨"sizing",
     ["^w-", "^min-w-", "^max-w-", "^h-", "^min-h-", "^max-h-", "^size-"]⟩,
    ⟨"typography",
     ["^font-", "^text-", "^tracking-", "^leading-", "^list-", "^placeholder-",
      "^align-", "^whitespace-", "^break-(?:normal|words|all)$", "^hyphens-",
      "^content-", "^indent-", "^(?:normal-case|uppercase|lowercase|capitalize)$",
      "^subpixel-antialiased$", "^antialiased$", "^decoration-", "^underline$"]⟩,
    ⟨"background",
     ["^bg-", "^from-", "^via-", "^to-", "^gradient-", "^accent-"]⟩,
    ⟨"borders",
     ["^border", "^rounded", "^outline-", "^ring-", "^ring-offset-"]⟩,
    ⟨"effects",
     ["^shadow", "^opacity-", "^mix-blend-", "^bg-blend-", "^drop-shadow-"]⟩,
    ⟨"filters",
     ["^blur-", "^brightness-", "^contrast-", "^grayscale", "^hue-rotate-",
      "^invert", "^saturate-", "^sepia", "^backdrop-"]⟩,
    ⟨"tables",
     ["^table-", "^caption-", "^border-(?:collapse|separate)$"]⟩,
    ⟨"transforms",
     ["^transform(-gpu)?$", "^origin-", "^scale-", "^rotate-", "^translate-",
      "^skew-", "^motion-(?:safe|reduce)", "^perspective-"]⟩,
    ⟨"transitions",
     ["^transition", "^duration-", "^ease-", "^delay-", "^animate-"]⟩,
    ⟨"interactivity",
     ["^appearance-", "^cursor-", "^caret-", "^pointer-events-", "^resize-",
      "^scroll-(?:smooth|auto)$", "^touch-", "^select-", "^will-change-",
      "^snap-"]⟩,
    ⟨"svg", ["^fill-", "^stroke-"]⟩,
    ⟨"accessibility", ["^sr-only$", "^not-sr-only$", "^aria-", "^data-"]⟩ ]

/-- Source `defaultCompiledGroups = compileGroupDefinitions(defaultGroupDefinitions)`
(every default pattern is valid, so compilation succeeds). -/
def defaultCompiledGroups : List CompiledGroup :=
  (compileGroupDefinitions defaultSem defaultGroupDefinitions).toOption.getD []

/-! ## Properties of the comparator (claim C1) -/

theorem lcmp_self (a : List Char) : lcmp a a = 0 := by
  induction a with
  | nil => rfl
  | cons c as ih => simp [lcmp, ih]

theorem lcmp_eq_zero_iff : ∀ a b : List Char, lcmp a b = 0 ↔ a = b := by
  intro a
  induction a with
  | nil => intro b; cases b <;> simp [lcmp]
  | cons c as ih =>
    intro b
    cases b with
    | nil => simp [lcmp]
    | cons d bs =>
      simp only [lcmp, List.cons.injEq]
      split_ifs with h1 h2
      · constructor
        · intro h; exact absurd h (by decide)
        · rintro ⟨rfl, -⟩; exact absurd h1 (lt_irrefl _)
      · constructor
        · intro h; exact absurd h (by decide)
        · rintro ⟨rfl, -⟩; exact absurd h2 (lt_irrefl _)
      · have hcd : c = d := le_antisymm (not_lt.mp h2) (not_lt.mp h1)
        simp [hcd, ih bs]

theorem lcmp_lt_char (x y : Char) (as bs : List Char) :
    lcmp (x :: as) (y :: bs) < 0 ↔ x < y ∨ (x = y ∧ lcmp as bs < 0) := by
  simp only [lcmp]
  split_ifs with h1 h2
  · constructor
    · intro _; exact Or.inl h1
    · intro _; decide
  · constructor
    · intro h; exact absurd h (by decide)
    · rintro (h | ⟨rfl, -⟩)
      · exact absurd h h1
      · exact absurd h2 (lt_irrefl _)
  · have hxy : x = y := le_antisymm (not_lt.mp h2) (not_lt.mp h1)
    simp [h1, hxy]

theorem lcmp_swap : ∀ a b : List Char, lcmp b a = - lcmp a b := by
  intro a
  induction a with
  | nil => intro b; cases b <;> simp [lcmp]
  | cons x as ih =>
    intro b
    cases b with
    | nil => simp [lcmp]
    | cons y bs =>
      rcases lt_trichotomy x y with h | h | h
      · simp [lcmp, h, asymm h]
      · subst h; simp [lcmp, lt_irrefl, ih bs]
      · simp [lcmp, h, asymm h]

theorem lcmp_trans_lt : ∀ a b c : List Char, lcmp a b < 0 → lcmp b c < 0 → lcmp a c < 0 := by
  intro a
  induction a with
  | nil =>
    intro b c hab hbc
    cases b with
    | nil => exact hbc
    | cons y bs =>
      cases c with
      | nil => simp [lcmp] at hbc
      | cons z cs => simp [lcmp]
  | cons x as ih =>
    intro b c hab hbc
    cases b with
    | nil => simp [lcmp] at hab
    | cons y bs =>
      cases c with
      | nil => simp [lcmp] at hbc
      | cons z cs =>
        rw [lcmp_lt_char] at hab hbc ⊢
        rcases hab with h | ⟨rfl, h⟩ <;> rcases hbc with h' | ⟨rfl, h'⟩
        · exact Or.inl (lt_trans h h')
        · exact Or.inl h
        · exact Or.inl h'
        · exact Or.inr ⟨rfl, ih bs cs h h'⟩

/-- `compareClasses` with its `let`s unfolded (definitional restatement used
to drive the case analyses below). -/
theorem compareClasses_eq (gs : List CompiledGroup) (a b : List Char) :
    compareClasses a b gs =
      (if (normalizeToken a gs).groupWeight ≠ (normalizeToken b gs).groupWeight then
        ((normalizeToken a gs).groupWeight : Int) - ((normalizeToken b gs).groupWeight : Int)
      else if lcmp (normalizeToken a gs).base (normalizeToken b gs).base ≠ 0 then
        lcmp (normalizeToken a gs).base (normalizeToken b gs).base
      else if (normalizeToken a gs).important ≠ (normalizeToken b gs).important then
        (if (normalizeToken a gs).important then 1 else -1)
      else lcmp a b) := rfl

/-- The four comparison keys of claim C1, applied lexicographically: group
weight, then base (code-point lexicographic), then importance (important
strictly after non-important), then the original token. -/
def fourKeyLt (gs : List CompiledGroup) (a b : List Char) : Prop :=
  (normalizeToken a gs).groupWeight < (normalizeToken b gs).groupWeight ∨
    ((normalizeToken a gs).groupWeight = (normalizeToken b gs).groupWeight ∧
      (lcmp (normalizeToken a gs).base (normalizeToken b gs).base < 0 ∨
        ((normalizeToken a gs).base = (normalizeToken b gs).base ∧
          (((normalizeToken a gs).important = false ∧ (normalizeToken b gs).important = true) ∨
            ((normalizeToken a gs).important = (normalizeToken b gs).important ∧
              lcmp a b < 0)))))

theorem compareClasses_self (gs : List CompiledGroup) (a : List Char) :
    compareClasses a a gs = 0 := by
  rw [compareClasses_eq]
  simp [lcmp_self]

theorem compareClasses_zero_iff (gs : List CompiledGroup) (a b : List Char) :
    compareClasses a b gs = 0 ↔ a = b := by
  constructor
  · intro h
    rw [compareClasses_eq] at h
    split_ifs at h with h1 h2 h3 h4
    · exact absurd (by omega :
        (normalizeToken a gs).groupWeight = (normalizeToken b gs).groupWeight) h1
    · exact absurd h h2
    · exact absurd h (by decide)
    · exact (lcmp_eq_zero_iff a b).mp h
  · rintro rfl
    exact compareClasses_self gs a
theorem compareClasses_lt_char (gs : List CompiledGroup) (a b : List Char) :
    compareClasses a b gs < 0 ↔ fourKeyLt gs a b := by
  rw [compareClasses_eq, fourKeyLt]
  split_ifs with h1 h2 h3 h4
  · constructor
    · intro h
      exact Or.inl (by omega)
    · rintro (h | ⟨heq, -⟩)
      · omega
      · exact absurd heq h1
  · push_neg at h1
    constructor
    · intro h
      exact Or.inr ⟨h1, Or.inl h⟩
    · rintro (h | ⟨-, h | ⟨heq, -⟩⟩)
      · omega
      · exact h
      · exact absurd ((lcmp_eq_zero_iff _ _).mpr heq) h2
  · -- importance differs and `a` is important: compare is 1, and no key makes a smaller
    push_neg at h1 h2
    constructor
    · intro h
      exact absurd h (by decide)
    · rintro (h | ⟨-, h | ⟨-, ⟨ha, -⟩ | ⟨heq, -⟩⟩⟩)
      · omega
      · omega
      · exact absurd (h4.symm.trans ha) (by decide)
      · exact absurd heq h3
  · -- importance differs and `a` is not important: compare is -1 and `a` sorts first
    push_neg at h1 h2
    have ha : (normalizeToken a gs).important = false := by
      rcases hx : (normalizeToken a gs).important
      · rfl
      · exact absurd hx h4
    have hb : (normalizeToken b gs).important = true := by
      rcases hx : (normalizeToken b gs).important
      · exact absurd (ha.trans hx.symm) h3
      · rfl
    constructor
    · intro _
      exact Or.inr ⟨h1, Or.inr ⟨(lcmp_eq_zero_iff _ _).mp h2, Or.inl ⟨ha, hb⟩⟩⟩
    · intro _
      decide
  · push_neg at h1 h2 h3
    constructor
    · intro h
      exact Or.inr ⟨h1, Or.inr ⟨(lcmp_eq_zero_iff _ _).mp h2, Or.inr ⟨h3, h⟩⟩⟩
    · rintro (h | ⟨-, h | ⟨-, ⟨ha, hb⟩ | ⟨-, h⟩⟩⟩)
      · omega
      · rw [h2] at h; exact absurd h (by decide)
      · exact absurd (ha.symm.trans (h3.trans hb)) (by decide)
      · exact h

theorem compareClasses_pos_char (gs : List CompiledGroup) (a b : List Char) :
    0 < compareClasses b a gs ↔ fourKeyLt gs a b := by
  rw [compareClasses_eq gs b a, fourKeyLt]
  have hsb := lcmp_swap (normalizeToken a gs).base (normalizeToken b gs).base
  have hso := lcmp_swap a b
  split_ifs with h1 h2 h3 h4
  · constructor
    · intro h
      exact Or.inl (by omega)
    · rintro (h | ⟨heq, -⟩)
      · omega
      · exact absurd heq.symm h1
  · push_neg at h1
    constructor
    · intro h
      exact Or.inr ⟨h1.symm, Or.inl (by omega)⟩
    · rintro (h | ⟨-, h | ⟨heq, -⟩⟩)
      · omega
      · omega
      · exact absurd ((lcmp_eq_zero_iff _ _).mpr heq.symm) (by omega)
  · -- `b` is important, `a` is not: compare b a is 1 and a sorts strictly first
    push_neg at h1 h2
    have ha : (normalizeToken a gs).important = false := by
      rcases hx : (normalizeToken a gs).important
      · rfl
      · exact absurd (h4.trans hx.symm) h3
    constructor
    · intro _
      exact Or.inr ⟨h1.symm, Or.inr ⟨((lcmp_eq_zero_iff _ _).mp h2).symm, Or.inl ⟨ha, h4⟩⟩⟩
    · intro _
      decide
  · push_neg at h1 h2
    have hb : (normalizeToken b gs).important = false := by
      rcases hx : (normalizeToken b gs).important
      · rfl
      · exact absurd hx h4
    constructor
    · intro h
      exact absurd h (by decide)
    · rintro (h | ⟨-, h | ⟨-, ⟨-, hbt⟩ | ⟨heq, -⟩⟩⟩)
      · omega
      · omega
      · exact absurd (hb.symm.trans hbt) (by decide)
      · exact absurd heq.symm h3
  · push_neg at h1 h2 h3
    constructor
    · intro h
      exact Or.inr ⟨h1.symm, Or.inr ⟨((lcmp_eq_zero_iff _ _).mp h2).symm,
        Or.inr ⟨h3.symm, by omega⟩⟩⟩
    · rintro (h | ⟨-, h | ⟨-, ⟨ha, hbt⟩ | ⟨-, h⟩⟩⟩)
      · omega
      · have : lcmp (normalizeToken a gs).base (normalizeToken b gs).base = 0 := by omega
        rw [this] at hsb
        omega
      · exact absurd (ha.symm.trans (h3.symm.trans hbt)) (by decide)
      · omega

theorem compareClasses_antisym (gs : List CompiledGroup) (a b : List Char) :
    compareClasses a b gs < 0 ↔ 0 < compareClasses b a gs :=
  (compareClasses_lt_char gs a b).trans (compareClasses_pos_char gs a b).symm

theorem fourKeyLt_trans (gs : List CompiledGroup) (a b c : List Char) :
    fourKeyLt gs a b → fourKeyLt gs b c → fourKeyLt gs a c := by
  rw [fourKeyLt, fourKeyLt, fourKeyLt]
  rintro (h | ⟨e1, h⟩) (h' | ⟨e2, h'⟩)
  · exact Or.inl (lt_trans h h')
  · exact Or.inl (e2 ▸ h)
  · exact Or.inl (e1 ▸ h')
  · refine Or.inr ⟨e1.trans e2, ?_⟩
    rcases h with h | ⟨f1, h⟩ <;> rcases h' with h' | ⟨f2, h'⟩
    · exact Or.inl (lcmp_trans_lt _ _ _ h h')
    · exact Or.inl (f2 ▸ h)
    · exact Or.inl (f1 ▸ h')
    · refine Or.inr ⟨f1.trans f2, ?_⟩
      rcases h with ⟨i1, i2⟩ | ⟨i1, h⟩ <;> rcases h' with ⟨j1, j2⟩ | ⟨j1, h'⟩
      · exact absurd (i2.symm.trans j1) (by simp)
      · exact Or.inl ⟨i1, j1 ▸ i2⟩
      · exact Or.inl ⟨i1 ▸ j1, j2⟩
      · exact Or.inr ⟨i1.trans j1, lcmp_trans_lt _ _ _ h h'⟩

/-- C1: against every compiled group list, `compareClasses` compares two
tokens by exactly four lexicographically applied keys - group weight (lower
first), then the normalized bases under the (code-point) lexicographic
order, then importance with an important token strictly after a
non-important one, then the original token strings - and is a total order:
reflexively zero, zero exactly on equal tokens, sign-antisymmetric and
transitive; in particular `compareClasses "flex" "!flex" < 0`.
(`localeCompare` is modelled as code-point lexicographic comparison.) -/
theorem compareClasses_total_order (gs : List CompiledGroup) (a b c : List Char) :
    compareClasses a a gs = 0 ∧
    (compareClasses a b gs = 0 ↔ a = b) ∧
    (compareClasses a b gs < 0 ↔ 0 < compareClasses b a gs) ∧
    (compareClasses a b gs < 0 → compareClasses b c gs < 0 → compareClasses a c gs < 0) ∧
    (compareClasses a b gs < 0 ↔ fourKeyLt gs a b) ∧
    compareClasses "flex".data "!flex".data gs < 0 := by
  refine ⟨compareClasses_self gs a, compareClasses_zero_iff gs a b,
    compareClasses_antisym gs a b, ?_, compareClasses_lt_char gs a b, ?_⟩
  · intro h h'
    exact (compareClasses_lt_char gs a c).mpr
      (fourKeyLt_trans gs a b c ((compareClasses_lt_char gs a b).mp h)
        ((compareClasses_lt_char gs b c).mp h'))
  · have hnf : normalizeToken "flex".data gs =
        ⟨false, "flex".data, resolveGroupWeight "flex".data gs⟩ := rfl
    have hni : normalizeToken "!flex".data gs =
        ⟨true, "flex".data, resolveGroupWeight "flex".data gs⟩ := rfl
    rw [compareClasses_eq, hnf, hni]
    simp [lcmp_self]

/-! ## Properties of group compilation and weight resolution (claims C2, C10) -/

/-- Spec-side: the compiled groups a successful `compileGroupDefinitions`
returns - one group per definition, `weight = position`, matchers compiled
under `sem` (every pattern valid, so `getD` never fires). -/
def defsCompiled (sem : String → Option (List Char → Bool)) (i : Nat) :
    List GroupDefinition → List CompiledGroup
  | [] => []
  | d :: ds =>
    ⟨d.name, i, d.matchers.map (fun p => (sem p).getD (fun _ => false))⟩ ::
      defsCompiled sem (i + 1) ds

/-- Spec-side: the first invalid matcher pattern, in traversal order (all
matchers of the first definition, then the second, ...). -/
def firstBadPattern (sem : String → Option (List Char → Bool)) :
    List GroupDefinition → Option String
  | [] => none
  | d :: ds =>
    match d.matchers.find? (fun p => (sem p).isNone) with
    | some p => some p
    | none => firstBadPattern sem ds

/-- Spec-side: the index of the first definition, in registry order, any of
whose matchers matches the token. -/
def firstMatchingDefIdx (sem : String → Option (List Char → Bool))
    (token : List Char) : List GroupDefinition → Option Nat
  | [] => none
  | d :: ds =>
    if d.matchers.any (fun p => ((sem p).getD (fun _ => false)) token) then some 0
    else (firstMatchingDefIdx sem token ds).map (· + 1)

theorem compileMatchers_eq (sem : String → Option (List Char → Bool))
    (ps : List String) :
    compileMatchers sem ps =
      match ps.find? (fun p => (sem p).isNone) with
      | some p => .error p
      | none => .ok (ps.map (fun p => (sem p).getD (fun _ => false))) := by
  induction ps with
  | nil => rfl
  | cons p ps ih =>
    cases hp : sem p with
    | none => simp [compileMatchers, hp, List.find?_cons_of_pos, Option.isNone]
    | some r =>
      rw [compileMatchers, hp, ih]
      have : (fun p => (sem p).isNone) p = false := by simp [hp]
      rw [List.find?_cons_of_neg _ (by simp [hp])]
      cases hf : ps.find? (fun p => (sem p).isNone) <;> simp [hp]

theorem compileGroupsFrom_eq (sem : String → Option (List Char → Bool)) :
    ∀ (defs : List GroupDefinition) (i : Nat),
    compileGroupsFrom sem i defs =
      match firstBadPattern sem defs with
      | some p => .error p
      | none => .ok (defsCompiled sem i defs) := by
  intro defs
  induction defs with
  | nil => intro i; rfl
  | cons d ds ih =>
    intro i
    rw [compileGroupsFrom, compileMatchers_eq, firstBadPattern]
    cases hf : d.matchers.find? (fun p => (sem p).isNone) with
    | some p => rfl
    | none =>
      rw [ih (i + 1)]
      cases hb : firstBadPattern sem ds <;> simp [defsCompiled]

theorem defsCompiled_length (sem : String → Option (List Char → Bool)) :
    ∀ (defs : List GroupDefinition) (i : Nat),
    (defsCompiled sem i defs).length = defs.length := by
  intro defs
  induction defs with
  | nil => intro i; rfl
  | cons d ds ih => intro i; simp [defsCompiled, ih (i + 1)]

theorem defsCompiled_get? (sem : String → Option (List Char → Bool)) :
    ∀ (defs : List GroupDefinition) (i k : Nat),
    (defsCompiled sem i defs).get? k =
      (defs.get? k).map (fun d =>
        ⟨d.name, i + k, d.matchers.map (fun p => (sem p).getD (fun _ => false))⟩) := by
  intro defs
  induction defs with
  | nil => intro i k; cases k <;> rfl
  | cons d ds ih =>
    intro i k
    cases k with
    | zero => simp [defsCompiled]
    | succ k =>
      simp only [defsCompiled, List.get?_cons_succ, ih (i + 1) k]
      have hadd : i + 1 + k = i + (k + 1) := by omega
      rw [hadd]

theorem defsCompiled_weight_lt (sem : String → Option (List Char → Bool)) :
    ∀ (defs : List GroupDefinition) (i : Nat) (g : CompiledGroup),
    g ∈ defsCompiled sem i defs → g.weight < i + defs.length := by
  intro defs
  induction defs with
  | nil => intro i g hg; simp [defsCompiled] at hg
  | cons d ds ih =>
    intro i g hg
    rcases List.mem_cons.mp hg with rfl | hg
    · show i < i + (d :: ds).length
      simp only [List.length_cons]
      omega
    · have := ih (i + 1) g hg
      simp only [List.length_cons]
      omega

theorem rgwGo_defsCompiled (sem : String → Option (List Char → Bool))
    (token : List Char) :
    ∀ (defs : List GroupDefinition) (i total : Nat),
    rgwGo token total (defsCompiled sem i defs) =
      match firstMatchingDefIdx sem token defs with
      | some k => i + k
      | none => total := by
  intro defs
  induction defs with
  | nil => intro i total; rfl
  | cons d ds ih =>
    intro i total
    rw [defsCompiled, rgwGo, firstMatchingDefIdx]
    have hmap : ((d.matchers.map (fun p => (sem p).getD (fun _ => false))).any
        (fun r => r token)) = d.matchers.any (fun p => ((sem p).getD (fun _ => false)) token) := by
      induction d.matchers with
      | nil => rfl
      | cons p ps ihm => simp only [List.map_cons, List.any_cons, ihm]
    by_cases hm : d.matchers.any (fun p => ((sem p).getD (fun _ => false)) token) = true
    · rw [hmap, if_pos hm, if_pos hm]
      show i = i + 0
      omega
    · rw [hmap, if_neg hm, if_neg hm, ih (i + 1) total]
      cases hb : firstMatchingDefIdx sem token ds with
      | none => rfl
      | some k =>
        show i + 1 + k = i + (k + 1)
        omega

/-- C10 counterexample: compiling a group whose matcher pattern is the
invalid `"("` yields the same error whatever the group's name (here for two
different names `groupA` and `groupB`), so the raised error cannot name the
offending group - it carries only the offending pattern (the `SyntaxError` of
`new RegExp`), with no wrapping error type. -/
theorem compileGroupDefinitions_error_no_group :
    compileGroupDefinitions (fun _ => none) [⟨"groupA", ["("]⟩] = .error "(" ∧
    compileGroupDefinitions (fun _ => none) [⟨"groupB", ["("]⟩] = .error "(" ∧
    ("groupA" : String) ≠ "groupB" :=
  ⟨rfl, rfl, by decide⟩

/-- C10 amended: compilation fails fast, at construction time and before any
matching, with the underlying pattern-syntax error naming the first offending
pattern (but not its group); when every matcher pattern is valid it never
fails and returns one compiled group per definition, with weight equal to the
definition's position and the definition's name. -/
theorem compileGroupDefinitions_spec (sem : String → Option (List Char → Bool))
    (defs : List GroupDefinition) :
    (∀ p, firstBadPattern sem defs = some p →
      compileGroupDefinitions sem defs = .error p) ∧
    (firstBadPattern sem defs = none →
      compileGroupDefinitions sem defs = .ok (defsCompiled sem 0 defs)) ∧
    (defsCompiled sem 0 defs).length = defs.length ∧
    (∀ k, ((defsCompiled sem 0 defs).get? k).map (fun g => g.weight) =
      if k < defs.length then some k else none) ∧
    (∀ k, ((defsCompiled sem 0 defs).get? k).map (fun g => g.name) =
      (defs.get? k).map (fun d => d.name)) := by
  refine ⟨?_, ?_, defsCompiled_length sem defs 0, ?_, ?_⟩
  · intro p hp
    rw [compileGroupDefinitions, compileGroupsFrom_eq, hp]
  · intro hp
    rw [compileGroupDefinitions, compileGroupsFrom_eq, hp]
  · intro k
    rw [defsCompiled_get? sem defs 0 k]
    cases hk : defs.get? k with
    | none =>
      rw [if_neg]
      · rfl
      · simpa using List.get?_eq_none.mp hk
    | some d =>
      rw [if_pos]
      · simp
      · rcases List.get?_eq_some.mp hk with ⟨h, -⟩
        exact h
  · intro k
    rw [defsCompiled_get? sem defs 0 k]
    cases defs.get? k <;> rfl

set_option maxRecDepth 8192 in
/-- C2: for every token and every successfully compiled group list,
`resolveGroupWeight` returns the registry index of the first group, in
declaration order, containing a matcher that matches the token, and the
total number of groups when none matches; group weights are dense integers
starting at 0 in registry order, and an unclassified token sorts after every
named group.  The default registry compiles successfully. -/
theorem resolveGroupWeight_spec (sem : String → Option (List Char → Bool))
    (defs : List GroupDefinition) (token : List Char) :
    (∀ gs, compileGroupDefinitions sem defs = .ok gs →
      (resolveGroupWeight token gs =
        match firstMatchingDefIdx sem token defs with
        | some k => k
        | none => defs.length) ∧
      gs.length = defs.length ∧
      (∀ k, (gs.get? k).map (fun g => g.weight) =
        if k < defs.length then some k else none) ∧
      (firstMatchingDefIdx sem token defs = none →
        resolveGroupWeight token gs = gs.length ∧
        ∀ g ∈ gs, g.weight < resolveGroupWeight token gs)) ∧
    compileGroupDefinitions defaultSem defaultGroupDefinitions = .ok defaultCompiledGroups := by
  constructor
  · intro gs hok
    rw [compileGroupDefinitions, compileGroupsFrom_eq] at hok
    cases hb : firstBadPattern sem defs with
    | some p => rw [hb] at hok; exact absurd hok (by simp)
    | none =>
      rw [hb] at hok
      have hgs : gs = defsCompiled sem 0 defs := by
        cases hok
        rfl
      subst hgs
      have hlen := defsCompiled_length sem defs 0
      have hrgw : resolveGroupWeight token (defsCompiled sem 0 defs) =
          match firstMatchingDefIdx sem token defs with
          | some k => k
          | none => defs.length := by
        rw [resolveGroupWeight, rgwGo_defsCompiled sem token defs 0, hlen]
        cases firstMatchingDefIdx sem token defs <;> simp
      refine ⟨hrgw, hlen, fun k => ?_, fun hnone => ?_⟩
      · rw [defsCompiled_get? sem defs 0 k]
        cases hk : defs.get? k with
        | none =>
          rw [if_neg]
          · rfl
          · simpa using List.get?_eq_none.mp hk
        | some d =>
          rw [if_pos]
          · simp
          · rcases List.get?_eq_some.mp hk with ⟨h, -⟩
            exact h
      · have hw : resolveGroupWeight token (defsCompiled sem 0 defs) = defs.length := by
          rw [hrgw, hnone]
        refine ⟨by rw [hw, hlen], fun g hg => ?_⟩
        have := defsCompiled_weight_lt sem defs 0 g hg
        rw [hw]
        omega
  · rfl

/-! ## Properties of variant stripping (claim C3) -/

/-- Spec-side: the position (counted from the right end, 0-based in the
reversed token) of the first colon the right-to-left scan meets at bracket
depth 0. -/
def fciGo : List Char → Nat → Option Nat
  | [], _ => none
  | c :: rest, d =>
    if c = ']' then (fciGo rest (d + 1)).map (· + 1)
    else if c = '[' then (fciGo rest (if 0 < d then d - 1 else d)).map (· + 1)
    else if c = ':' then
      (if d = 0 then some 0 else (fciGo rest d).map (· + 1))
    else (fciGo rest d).map (· + 1)

/-- The bracket depth the right-to-left scanner has accumulated after
crossing `l` (having started at its right end with depth 0). -/
def depthRL (l : List Char) : Nat := l.reverse.foldl svDepth 0

/-- `l` contains no colon that the right-to-left scanner would see at
bracket depth 0. -/
def noZeroColon (l : List Char) : Prop :=
  ∀ p q : List Char, l = p ++ ':' :: q → depthRL q ≠ 0

theorem svGo_eq : ∀ (rev : List Char) (d : Nat) (acc : List Char),
    svGo rev d acc = (fciGo rev d).map (fun k => (rev.take k).reverse ++ acc) := by
  intro rev
  induction rev with
  | nil => intro d acc; rfl
  | cons c rest ih =>
    intro d acc
    rw [svGo, fciGo]
    by_cases h1 : c = ']'
    · rw [if_pos h1, if_pos h1, ih (d + 1) (c :: acc)]
      cases fciGo rest (d + 1) <;>
        simp [List.take_succ_cons, List.reverse_cons, List.append_assoc]
    · rw [if_neg h1, if_neg h1]
      by_cases h2 : c = '['
      · rw [if_pos h2, if_pos h2, ih (if 0 < d then d - 1 else d) (c :: acc)]
        cases fciGo rest (if 0 < d then d - 1 else d) <;>
          simp [List.take_succ_cons, List.reverse_cons, List.append_assoc]
      · rw [if_neg h2, if_neg h2]
        by_cases h3 : c = ':'
        · rw [if_pos h3, if_pos h3]
          by_cases h4 : d = 0
          · rw [if_pos h4, if_pos h4]
            simp
          · rw [if_neg h4, if_neg h4, ih d (c :: acc)]
            cases fciGo rest d <;>
              simp [List.take_succ_cons, List.reverse_cons, List.append_assoc]
        · rw [if_neg h3, if_neg h3, ih d (c :: acc)]
          cases fciGo rest d <;>
            simp [List.take_succ_cons, List.reverse_cons, List.append_assoc]

theorem fciGo_some : ∀ (l : List Char) (d k : Nat), fciGo l d = some k →
    ∃ l₁ l₂, l = l₁ ++ ':' :: l₂ ∧ l₁.length = k ∧
      l₁.foldl svDepth d = 0 ∧ fciGo l₁ d = none := by
  intro l
  induction l with
  | nil => intro d k h; exact absurd h (by simp [fciGo])
  | cons c rest ih =>
    intro d k h
    rw [fciGo] at h
    by_cases h1 : c = ']'
    · rw [if_pos h1] at h
      cases hf : fciGo rest (d + 1) with
      | none => rw [hf] at h; exact absurd h (by simp)
      | some kk =>
        rw [hf] at h
        rcases ih (d + 1) kk hf with ⟨l₁, l₂, hdec, hlen, hdepth, hnone⟩
        refine ⟨c :: l₁, l₂, by rw [hdec]; rfl, ?_, ?_, ?_⟩
        · simp only [List.length_cons, hlen]
          simpa using h
        · rw [List.foldl_cons]
          have : svDepth d c = d + 1 := by simp [svDepth, h1]
          rw [this]
          exact hdepth
        · rw [fciGo, if_pos h1, hnone]
          rfl
    · rw [if_neg h1] at h
      by_cases h2 : c = '['
      · rw [if_pos h2] at h
        cases hf : fciGo rest (if 0 < d then d - 1 else d) with
        | none => rw [hf] at h; exact absurd h (by simp)
        | some kk =>
          rw [hf] at h
          rcases ih _ kk hf with ⟨l₁, l₂, hdec, hlen, hdepth, hnone⟩
          refine ⟨c :: l₁, l₂, by rw [hdec]; rfl, ?_, ?_, ?_⟩
          · simp only [List.length_cons, hlen]
            simpa using h
          · rw [List.foldl_cons]
            have : svDepth d c = if 0 < d then d - 1 else d := by simp [svDepth, h1, h2]
            rw [this]
            exact hdepth
          · rw [fciGo, if_neg h1, if_pos h2, hnone]
            rfl
      · rw [if_neg h2] at h
        by_cases h3 : c = ':'
        · rw [if_pos h3] at h
          by_cases h4 : d = 0
          · rw [if_pos h4] at h
            refine ⟨[], rest, by rw [h3]; rfl, ?_, by simpa using h4, rfl⟩
            simpa using h
          · rw [if_neg h4] at h
            cases hf : fciGo rest d with
            | none => rw [hf] at h; exact absurd h (by simp)
            | some kk =>
              rw [hf] at h
              rcases ih d kk hf with ⟨l₁, l₂, hdec, hlen, hdepth, hnone⟩
              refine ⟨c :: l₁, l₂, by rw [hdec]; rfl, ?_, ?_, ?_⟩
              · simp only [List.length_cons, hlen]
                simpa using h
              · rw [List.foldl_cons]
                have : svDepth d c = d := by simp [svDepth, h1, h2]
                rw [this]
                exact hdepth
              · rw [fciGo, if_neg h1, if_neg h2, if_pos h3, if_neg h4, hnone]
                rfl
        · rw [if_neg h3] at h
          cases hf : fciGo rest d with
          | none => rw [hf] at h; exact absurd h (by simp)
          | some kk =>
            rw [hf] at h
            rcases ih d kk hf with ⟨l₁, l₂, hdec, hlen, hdepth, hnone⟩
            refine ⟨c :: l₁, l₂, by rw [hdec]; rfl, ?_, ?_, ?_⟩
            · simp only [List.length_cons, hlen]
              simpa using h
            · rw [List.foldl_cons]
              have : svDepth d c = d := by simp [svDepth, h1, h2]
              rw [this]
              exact hdepth
            · rw [fciGo, if_neg h1, if_neg h2, if_neg h3, hnone]
              rfl

theorem fciGo_none : ∀ (l : List Char) (d : Nat), fciGo l d = none →
    ∀ l₁ l₂ : List Char, l = l₁ ++ ':' :: l₂ → l₁.foldl svDepth d ≠ 0 := by
  intro l
  induction l with
  | nil =>
    intro d _ l₁ l₂ hdec
    exact absurd hdec (by cases l₁ <;> simp)
  | cons c rest ih =>
    intro d h l₁ l₂ hdec
    cases l₁ with
    | nil =>
      simp only [List.nil_append, List.cons.injEq] at hdec
      rcases hdec with ⟨rfl, rfl⟩
      rw [fciGo, if_neg (by decide), if_neg (by decide), if_pos rfl] at h
      by_cases h4 : d = 0
      · rw [if_pos h4] at h
        exact absurd h (by simp)
      · intro h0
        simp only [List.foldl_nil] at h0
        exact h4 h0
    | cons x xs =>
      simp only [List.cons_append, List.cons.injEq] at hdec
      rcases hdec with ⟨rfl, hrest⟩
      rw [List.foldl_cons]
      rw [fciGo] at h
      by_cases h1 : c = ']'
      · rw [if_pos h1] at h
        have hn : fciGo rest (d + 1) = none := by
          cases hf : fciGo rest (d + 1) <;> rw [hf] at h <;> simp_all
        have hs : svDepth d c = d + 1 := by simp [svDepth, h1]
        rw [hs]
        exact ih (d + 1) hn xs l₂ hrest
      · rw [if_neg h1] at h
        by_cases h2 : c = '['
        · rw [if_pos h2] at h
          have hn : fciGo rest (if 0 < d then d - 1 else d) = none := by
            cases hf : fciGo rest (if 0 < d then d - 1 else d) <;> rw [hf] at h <;> simp_all
          have hs : svDepth d c = if 0 < d then d - 1 else d := by simp [svDepth, h1, h2]
          rw [hs]
          exact ih _ hn xs l₂ hrest
        · rw [if_neg h2] at h
          by_cases h3 : c = ':'
          · rw [if_pos h3] at h
            by_cases h4 : d = 0
            · rw [if_pos h4] at h
              exact absurd h (by simp)
            · rw [if_neg h4] at h
              have hn : fciGo rest d = none := by
                cases hf : fciGo rest d <;> rw [hf] at h <;> simp_all
              have hs : svDepth d c = d := by simp [svDepth, h1, h2]
              rw [hs]
              exact ih d hn xs l₂ hrest
          · rw [if_neg h3] at h
            have hn : fciGo rest d = none := by
              cases hf : fciGo rest d <;> rw [hf] at h <;> simp_all
            have hs : svDepth d c = d := by simp [svDepth, h1, h2]
            rw [hs]
            exact ih d hn xs l₂ hrest

/-- C3: `stripVariants` (used by `normalize` after important-prefix removal)
cuts the token at the first colon met scanning right to left at bracket
depth 0 - the result is exactly the suffix after that colon, which itself
contains no depth-0 colon - and returns the whole token when no such colon
exists (colons inside `[...]` are skipped by the depth bookkeeping); in
particular normalizing `hover:[&:nth-child(2)]:bg-red-500` yields base
`bg-red-500`, and `hover:bg-red-500` resolves to the same group weight as
`bg-red-500` against every compiled group list. -/
theorem stripVariants_spec (token : List Char) (gs : List CompiledGroup) :
    ((∃ pre post, token = pre ++ ':' :: post ∧ depthRL post = 0 ∧ noZeroColon post ∧
        stripVariants token = post) ∨
      (noZeroColon token ∧ stripVariants token = token)) ∧
    (normalizeToken "hover:[&:nth-child(2)]:bg-red-500".data gs).base = "bg-red-500".data ∧
    (normalizeToken "hover:bg-red-500".data gs).groupWeight =
      (normalizeToken "bg-red-500".data gs).groupWeight := by
  refine ⟨?_, rfl, rfl⟩
  cases hf : fciGo token.reverse 0 with
  | none =>
    right
    constructor
    · intro p q hdec
      have hrev : token.reverse = q.reverse ++ ':' :: p.reverse := by
        rw [hdec]
        simp
      exact fciGo_none token.reverse 0 hf q.reverse p.reverse hrev
    · rw [stripVariants, svGo_eq, hf]
      rfl
  | some k =>
    left
    rcases fciGo_some token.reverse 0 k hf with ⟨l₁, l₂, hdec, hlen, hdepth, hnone⟩
    refine ⟨l₂.reverse, l₁.reverse, ?_, ?_, ?_, ?_⟩
    · have := congrArg List.reverse hdec
      simpa using this
    · rw [depthRL, List.reverse_reverse]
      exact hdepth
    · intro p q hpq
      have hl1 : l₁ = q.reverse ++ ':' :: p.reverse := by
        have := congrArg List.reverse hpq
        simpa using this
      exact fciGo_none l₁ 0 hnone q.reverse p.reverse hl1
    · rw [stripVariants, svGo_eq, hf, hdec, ← hlen]
      show ((l₁ ++ ':' :: l₂).take l₁.length).reverse ++ [] = l₁.reverse
      rw [List.take_left, List.append_nil]

/-! ## Whitespace collapsing and trivial formatter inputs (claims C4, C5, C6) -/

/-- Does the list contain two adjacent whitespace characters? -/
def hasWsPair : List Char → Bool
  | c :: d :: rest => (isJsWs c && isJsWs d) || hasWsPair (d :: rest)
  | _ => false

/-- C4 (code-bug evaluation): because `WHITESPACE_RE` lacks the `g` flag,
`collapseWhitespace` replaces only the first maximal whitespace run - on
`"a  b  c"` it returns `"a b  c"`, which still contains two adjacent
whitespace characters, contradicting the collapse-every-run claim; the
claim's own example `"  flex   gap-4  "` has a single interior run and so is
collapsed fully. -/
theorem collapseWhitespace_first_run_only :
    collapseWhitespace "a  b  c".data = "a b  c".data ∧
    hasWsPair "a b  c".data = true ∧
    collapseWhitespace "  flex   gap-4  ".data = "flex gap-4".data ∧
    hasWsPair "flex gap-4".data = false := by
  decide

/-- `formatWithGroups` with its `let`s unfolded (definitional restatement). -/
theorem formatWithGroups_eq (value : List Char) (gs : List CompiledGroup)
    (twm : List Char → List Char) :
    formatWithGroups value gs twm =
      (if collapseWhitespace value = [] then none
      else if ((splitOnSpace (collapseWhitespace value)).filter (· ≠ [])).length ≤ 1 then
        (if collapseWhitespace value = value then none else some (collapseWhitespace value))
      else
        let merged := collapseWhitespace (twm (joinSp (sortTokens gs
          ((splitOnSpace (collapseWhitespace value)).filter (· ≠ [])))))
        if merged = collapseWhitespace value then
          (if collapseWhitespace value = value then none else some (collapseWhitespace value))
        else some merged) := rfl

/-- The conflict resolver model with an empty conflict relation: it splits on
whitespace runs and joins the tokens with single spaces, dropping nothing
(what `twMerge` does to token lists with no conflicting Tailwind classes). -/
def twmNoConflict : List Char → List Char := twMergeModel (fun _ _ => false)

/-- C5 counterexample: the already-canonical two-token input `"a b"` is not
trivial - it collapses to itself and splits into two tokens - yet `format`
returns null on it (the merged result equals the collapsed input), so null is
not returned exactly on trivial inputs. -/
theorem formatWithGroups_null_on_nontrivial :
    formatWithGroups "a b".data [] twmNoConflict = none ∧
    collapseWhitespace "a b".data = "a b".data ∧
    ((splitOnSpace "a b".data).filter (· ≠ [])).length = 2 := by
  decide

/-- C5 amended: on trivial inputs `format` returns null exactly as the spec
steps describe - an empty collapsed value yields null, a collapsed value
with at most one token yields null when collapsing changed nothing and the
collapsed string otherwise (so a one-token input with no extra whitespace
yields null) - but null is not returned only on trivial inputs: an
already-canonical multi-token input also yields null (see the
counterexample). -/
theorem formatWithGroups_trivial (value : List Char) (gs : List CompiledGroup)
    (twm : List Char → List Char) :
    (collapseWhitespace value = [] → formatWithGroups value gs twm = none) ∧
    (collapseWhitespace value ≠ [] →
      ((splitOnSpace (collapseWhitespace value)).filter (· ≠ [])).length ≤ 1 →
      formatWithGroups value gs twm =
        (if collapseWhitespace value = value then none
         else some (collapseWhitespace value))) ∧
    (collapseWhitespace value = value →
      ((splitOnSpace value).filter (· ≠ [])).length = 1 →
      formatWithGroups value gs twm = none) := by
  refine ⟨?_, ?_, ?_⟩
  · intro h
    rw [formatWithGroups_eq, if_pos h]
  · intro h h2
    rw [formatWithGroups_eq, if_neg h, if_pos h2]
  · intro h h1
    have hne : value ≠ [] := by
      intro hv
      rw [hv] at h1
      simp [splitOnSpace] at h1
    rw [formatWithGroups_eq, h, if_neg hne, if_pos (by omega), if_pos rfl]

set_option maxRecDepth 16384 in
/-- C6 (code-bug evaluation): re-formatting an already-formatted class list
is not a no-op.  On `"b a\tc"` (a tab that is not part of the first
whitespace run survives `collapseWhitespace` inside the token `"a\tc"`, the
conflict resolver re-splits it) the first pass returns `"a c b"` and
re-formatting that output returns `"a b c"` instead of null, violating
idempotence. -/
theorem formatWithGroups_not_idempotent :
    formatWithGroups "b a\tc".data defaultCompiledGroups twmNoConflict =
      some "a c b".data ∧
    formatWithGroups
      ((formatWithGroups "b a\tc".data defaultCompiledGroups twmNoConflict).getD
        "b a\tc".data) defaultCompiledGroups twmNoConflict = some "a b c".data := by
  exact ⟨by decide, by decide⟩

/-! ## The extraction engine's argument regions (claims C7, C8, C9) -/

theorem fmpGo_cons_str (ch : Char) (rest : List Char) (i : Nat) (d : Int)
    (q : Char) (e : Bool) :
    fmpGo (ch :: rest) i d (some q) e =
      fmpGo rest (i + 1) d (if ¬ e ∧ ch = q then none else some q)
        (decide (¬ e ∧ ch = '\\')) := rfl

theorem fmpGo_cons_none (ch : Char) (rest : List Char) (i : Nat) (d : Int) (e : Bool) :
    fmpGo (ch :: rest) i d none e =
      (if ch = '"' ∨ ch = '\'' ∨ ch = '`' then fmpGo rest (i + 1) d (some ch) false
      else if ch = '(' then fmpGo rest (i + 1) (d + 1) none e
      else if ch = ')' then
        (if d - 1 = 0 then some i else fmpGo rest (i + 1) (d - 1) none e)
      else fmpGo rest (i + 1) d none e) := rfl

theorem fmpGo_some : ∀ (l : List Char) (i : Nat) (depth : Int) (inStr : Option Char)
    (escaped : Bool) (j : Nat), fmpGo l i depth inStr escaped = some j →
    i ≤ j ∧ j - i < l.length ∧ l.get? (j - i) = some ')' := by
  intro l
  induction l with
  | nil => intro i d s e j h; exact absurd h (by simp [fmpGo])
  | cons ch rest ih =>
    intro i d s e j h
    have step : ∀ d' s' e', fmpGo rest (i + 1) d' s' e' = some j →
        i ≤ j ∧ j - i < (ch :: rest).length ∧ (ch :: rest).get? (j - i) = some ')' := by
      intro d' s' e' hh
      rcases ih (i + 1) d' s' e' j hh with ⟨h1, h2, h3⟩
      refine ⟨by omega, by simp only [List.length_cons]; omega, ?_⟩
      have hji : j - i = (j - (i + 1)) + 1 := by omega
      rw [hji, List.get?_cons_succ]
      exact h3
    cases s with
    | some q => rw [fmpGo_cons_str] at h; exact step _ _ _ h
    | none =>
      rw [fmpGo_cons_none] at h
      by_cases hq : ch = '"' ∨ ch = '\'' ∨ ch = '`'
      · rw [if_pos hq] at h
        exact step _ _ _ h
      · rw [if_neg hq] at h
        by_cases hp : ch = '('
        · rw [if_pos hp] at h
          exact step _ _ _ h
        · rw [if_neg hp] at h
          by_cases hc : ch = ')'
          · rw [if_pos hc] at h
            by_cases hd : d - 1 = 0
            · rw [if_pos hd] at h
              have hij : i = j := by injection h
              subst hij
              refine ⟨le_refl _, by simp, ?_⟩
              rw [Nat.sub_self]
              simp [hc]
            · rw [if_neg hd] at h
              exact step _ _ _ h
          · rw [if_neg hc] at h
            exact step _ _ _ h

theorem findMatchingParenIndex_close (text : List Char) (o j : Nat) :
    findMatchingParenIndex text o = some j → o < j ∧ text.get? j = some ')' := by
  intro h
  rw [findMatchingParenIndex] at h
  rcases fmpGo_some _ _ _ _ _ _ h with ⟨h1, h2, h3⟩
  refine ⟨by omega, ?_⟩
  rw [List.get?_drop] at h3
  have : o + 1 + (j - (o + 1)) = j := by omega
  rw [this] at h3
  exact h3

/-- The test text of the nested-call example:
`cn('relative size-full  rounded text-sm ', props.class)`. -/
def nestedCallText : List Char :=
  "cn(".data ++ '\'' :: "relative size-full  rounded text-sm ".data ++
    '\'' :: ", props.class)".data

set_option maxRecDepth 32768 in
/-- C7: the argument region of an outer match is delimited by
`findMatchingParenIndex`, which scans forward from the opening parenthesis
at nested parenthesis depth 1, treats quoted regions (with backslash-escape
awareness) as opaque, and stops exactly at a closing parenthesis (first
conjunct: whenever it returns an index, that index is past the opening one
and holds `)`); on `cn('relative size-full  rounded text-sm ', props.class)`
with the default `cn` locator pair, exactly the first quoted literal is
extracted - `props.class` is ignored - and that literal reformats to
`relative size-full text-sm rounded`. -/
theorem applyRegexEntry_nested_call :
    (∀ (text : List Char) (o j : Nat), findMatchingParenIndex text o = some j →
      o < j ∧ text.get? j = some ')') ∧
    applyRegexEntry cnExec (some quotedExec) nestedCallText =
      [⟨4, 40, "relative size-full  rounded text-sm ".data⟩] ∧
    formatWithGroups "relative size-full  rounded text-sm ".data
      defaultCompiledGroups twmNoConflict =
      some "relative size-full text-sm rounded".data := by
  refine ⟨findMatchingParenIndex_close, by decide, by decide⟩

theorem beginsWith_take : ∀ (p l : List Char), beginsWith l p = true ↔ l.take p.length = p := by
  intro p
  induction p with
  | nil => intro l; simp [beginsWith]
  | cons pc ps ih =>
    intro l
    cases l with
    | nil => simp [beginsWith]
    | cons c cs =>
      simp [beginsWith, List.take_succ_cons, ih cs, Bool.and_eq_true, beq_iff_eq]

theorem beginsWith_self (l : List Char) : beginsWith l l = true :=
  (beginsWith_take l l).mpr (by simp)

theorem beginsWith_length (l p : List Char) (h : beginsWith l p = true) :
    p.length ≤ l.length := by
  have := congrArg List.length ((beginsWith_take p l).mp h)
  simp only [List.length_take] at this
  omega

theorem idxOfSub_le_length : ∀ (l pat : List Char) (k : Nat),
    idxOfSub pat l = some k → k ≤ l.length := by
  intro l
  induction l with
  | nil =>
    intro pat k h
    rw [idxOfSub] at h
    split_ifs at h
    · simp at h
      omega
  | cons c rest ih =>
    intro pat k h
    rw [idxOfSub] at h
    split_ifs at h
    · simp at h
      omega
    · cases hf : idxOfSub pat rest with
      | none => rw [hf] at h; exact absurd h (by simp)
      | some kk =>
        rw [hf] at h
        have hk : k = kk + 1 := by simpa using h.symm
        have := ih pat kk hf
        simp only [List.length_cons]
        omega

theorem idxOfSub_begins : ∀ (l pat : List Char) (k : Nat),
    idxOfSub pat l = some k → beginsWith (l.drop k) pat = true := by
  intro l
  induction l with
  | nil =>
    intro pat k h
    rw [idxOfSub] at h
    split_ifs at h with hb
    · have hk : k = 0 := by simpa using h.symm
      subst hk
      exact hb
  | cons c rest ih =>
    intro pat k h
    rw [idxOfSub] at h
    split_ifs at h with hb
    · have hk : k = 0 := by simpa using h.symm
      subst hk
      exact hb
    · cases hf : idxOfSub pat rest with
      | none => rw [hf] at h; exact absurd h (by simp)
      | some kk =>
        rw [hf] at h
        have hk : k = kk + 1 := by simpa using h.symm
        subst hk
        rw [List.drop_succ_cons]
        exact ih pat kk hf

theorem idxOfSub_isSome_of : ∀ (l pat : List Char) (k : Nat),
    beginsWith (l.drop k) pat = true → (idxOfSub pat l).isSome = true := by
  intro l
  induction l with
  | nil =>
    intro pat k h
    rw [List.drop_nil] at h
    rw [idxOfSub, if_pos h]
    rfl
  | cons c rest ih =>
    intro pat k h
    rw [idxOfSub]
    by_cases hb : beginsWith (c :: rest) pat = true
    · rw [if_pos hb]
      rfl
    · rw [if_neg hb]
      cases k with
      | zero => exact absurd h hb
      | succ k =>
        rw [List.drop_succ_cons] at h
        simpa using ih pat k h

theorem idxOfSub_self (l : List Char) : idxOfSub l l = some 0 := by
  cases l with
  | nil => rw [idxOfSub, if_pos (beginsWith_self [])]
  | cons c rest => rw [idxOfSub, if_pos (beginsWith_self (c :: rest))]

theorem sliceJs_take_form (l : List Char) (a n : Nat) :
    sliceJs l a (a + n) = (l.drop a).take n := by
  rw [sliceJs]
  congr 1
  omega

theorem slice_nested (big sub : List Char) (o : Nat)
    (hsub : (big.drop o).take sub.length = sub) (a n : Nat)
    (han : a + n ≤ sub.length) :
    (big.drop (o + a)).take n = (sub.drop a).take n := by
  have h1 : big.drop (o + a) = (big.drop o).drop a := (List.drop_drop a o big).symm
  rw [h1, ← hsub, List.drop_take, List.take_take, min_eq_left (by omega)]

/-- What every match emitted by `processInnerMatches` looks like: it comes
from some successful non-empty inner exec, its range is the region offset
plus the inner match's offset adjusted by `findCaptureOffset` (the first
occurrence of the capture inside the full match), and its value is the text
sliced at that very range. -/
def InnerEmitted (ie : Engine) (target : List Char) (off : Nat) (text : List Char)
    (m : RangeMatch) : Prop :=
  ∃ r : ExecResult, (∃ li, ie target li = some r) ∧ r.matched ≠ [] ∧
    m.start = off + (r.index + findCaptureOffset r.matched (r.cap1.getD r.matched)) ∧
    m.stop = m.start + (r.cap1.getD r.matched).length ∧
    m.value = sliceJs text m.start m.stop

theorem pimGo_none (ie : Engine) (target : List Char) (off : Nat) (text : List Char)
    (fuel li : Nat) (seen : List (Nat × Nat)) (acc : List RangeMatch)
    (hx : ie target li = none) :
    pimGo ie target off text (fuel + 1) li seen acc = acc := by
  rw [pimGo, hx]

theorem pimGo_step (ie : Engine) (target : List Char) (off : Nat) (text : List Char)
    (fuel li : Nat) (seen : List (Nat × Nat)) (acc : List RangeMatch)
    (r : ExecResult) (hx : ie target li = some r) :
    pimGo ie target off text (fuel + 1) li seen acc =
      (if r.matched = [] then pimGo ie target off text fuel (r.index + 1) seen acc
      else
        if (off + (r.index + findCaptureOffset r.matched (r.cap1.getD r.matched)),
            off + (r.index + findCaptureOffset r.matched (r.cap1.getD r.matched)) +
              (r.cap1.getD r.matched).length) ∈ seen then
          pimGo ie target off text fuel (r.index + r.matched.length) seen acc
        else
          pimGo ie target off text fuel (r.index + r.matched.length)
            ((off + (r.index + findCaptureOffset r.matched (r.cap1.getD r.matched)),
              off + (r.index + findCaptureOffset r.matched (r.cap1.getD r.matched)) +
                (r.cap1.getD r.matched).length) :: seen)
            (acc ++ [⟨off + (r.index + findCaptureOffset r.matched (r.cap1.getD r.matched)),
              off + (r.index + findCaptureOffset r.matched (r.cap1.getD r.matched)) +
                (r.cap1.getD r.matched).length,
              sliceJs text
                (off + (r.index + findCaptureOffset r.matched (r.cap1.getD r.matched)))
                (off + (r.index + findCaptureOffset r.matched (r.cap1.getD r.matched)) +
                  (r.cap1.getD r.matched).length)⟩])) := by
  rw [pimGo, hx]

theorem pimGo_sound (ie : Engine) (target : List Char) (off : Nat) (text : List Char) :
    ∀ (fuel li : Nat) (seen : List (Nat × Nat)) (acc : List RangeMatch),
    (∀ m ∈ acc, InnerEmitted ie target off text m) →
    ∀ m ∈ pimGo ie target off text fuel li seen acc, InnerEmitted ie target off text m := by
  intro fuel
  induction fuel with
  | zero => intro li seen acc hacc m hm; exact hacc m hm
  | succ fuel ih =>
    intro li seen acc hacc m hm
    cases hx : ie target li with
    | none =>
      rw [pimGo_none ie target off text fuel li seen acc hx] at hm
      exact hacc m hm
    | some r =>
      rw [pimGo_step ie target off text fuel li seen acc r hx] at hm
      by_cases hemp : r.matched = []
      · rw [if_pos hemp] at hm
        exact ih _ _ _ hacc m hm
      · rw [if_neg hemp] at hm
        split_ifs at hm with hseen
        · exact ih _ _ _ hacc m hm
        · refine ih _ _ _ ?_ m hm
          intro m' hm'
          rcases List.mem_append.mp hm' with hm' | hm'
          · exact hacc m' hm'
          · have hm0 := List.mem_singleton.mp hm'
            subst hm0
            exact ⟨r, ⟨li, hx⟩, hemp, rfl, rfl, rfl⟩

theorem pimGo_nodup (ie : Engine) (target : List Char) (off : Nat) (text : List Char) :
    ∀ (fuel li : Nat) (seen : List (Nat × Nat)) (acc : List RangeMatch),
    (acc.map (fun m => (m.start, m.stop))).Nodup →
    (∀ m ∈ acc, (m.start, m.stop) ∈ seen) →
    ((pimGo ie target off text fuel li seen acc).map (fun m => (m.start, m.stop))).Nodup := by
  intro fuel
  induction fuel with
  | zero => intro li seen acc hnd _; exact hnd
  | succ fuel ih =>
    intro li seen acc hnd hsub
    cases hx : ie target li with
    | none =>
      rw [pimGo_none ie target off text fuel li seen acc hx]
      exact hnd
    | some r =>
      rw [pimGo_step ie target off text fuel li seen acc r hx]
      by_cases hemp : r.matched = []
      · rw [if_pos hemp]
        exact ih _ _ _ hnd hsub
      · rw [if_neg hemp]
        split_ifs with hseen
        · exact ih _ _ _ hnd hsub
        · refine ih _ _ _ ?_ ?_
          · rw [List.map_append, List.nodup_append]
            refine ⟨hnd, by simp, ?_⟩
            intro x hx1 hx2
            simp only [List.map_cons, List.map_nil, List.mem_singleton] at hx2
            rcases List.mem_map.mp hx1 with ⟨m', hm', hmx⟩
            exact hseen (hx2 ▸ hmx ▸ hsub m' hm')
          · intro m' hm'
            rcases List.mem_append.mp hm' with hm' | hm'
            · exact List.mem_cons_of_mem _ (hsub m' hm')
            · have hm0 := List.mem_singleton.mp hm'
              subst hm0
              exact List.mem_cons_self _ _

/-- Does `/ab(a)/` match at this position: literal `ab`, then `a` captured as
group 1 - which therefore sits at offset 2 of the full match (the `capIdx`
ghost field). -/
def abaTryAt (l : List Char) (i : Nat) : Option ExecResult :=
  if beginsWith l ['a', 'b', 'a'] then some ⟨i, ['a', 'b', 'a'], some ['a'], some 2⟩
  else none

/-- Model of the `exec` behaviour of the global regex `/ab(a)/g` (a perfectly
legal user-configured inner pattern). -/
def abaExec : Engine := fun text start => scanFrom abaTryAt (text.drop start) start

/-- C8 counterexample: with inner pattern `/ab(a)/` over region text `"aba"`
(at region offset 0), the captured group `"a"` occurs at offset 2 inside the
full match `"aba"` (ghost `capIdx`), so the claim requires the emitted range
to start at 0 + (0 + 2) = 2; but `findCaptureOffset` is `indexOf`, which
finds the earlier occurrence of `"a"` at offset 0, and the emitted match
starts at 0, not 2. -/
theorem processInnerMatches_wrong_offset :
    abaExec "aba".data 0 = some ⟨0, "aba".data, some "a".data, some 2⟩ ∧
    processInnerMatches abaExec "aba".data 0 "aba".data = [⟨0, 1, "a".data⟩] ∧
    (0 : Nat) ≠ 0 + (0 + 2) := by
  refine ⟨by decide, by decide, by decide⟩

/-- C8 amended: every match emitted by `processInnerMatches` comes from a
non-empty inner exec result and has range starting at the region's absolute
offset plus the inner match's offset plus the offset of the FIRST OCCURRENCE
of the captured text inside the full inner match (`indexOf`, 0 when absent) -
not necessarily the position where the captured group actually occurred -
with the value re-sliced from the source text at that computed range
(first conjunct); when the engine reports real matches of the region text
and captures that occur inside their full match, that value string equals
capture group 1 when the pattern captured, else the whole inner match
(second conjunct). -/
theorem processInnerMatches_spec (ie : Engine) (target : List Char) (off : Nat)
    (text : List Char) :
    (∀ m ∈ processInnerMatches ie target off text, InnerEmitted ie target off text m) ∧
    (sliceJs text off (off + target.length) = target →
      (∀ li r, ie target li = some r →
        sliceJs target r.index (r.index + r.matched.length) = r.matched) →
      (∀ li r c, ie target li = some r → r.cap1 = some c →
        ∃ k, beginsWith (r.matched.drop k) c = true) →
      ∀ m ∈ processInnerMatches ie target off text,
        ∃ r : ExecResult, (∃ li, ie target li = some r) ∧
          m.value = r.cap1.getD r.matched ∧
          m.start = off + (r.index +
            findCaptureOffset r.matched (r.cap1.getD r.matched))) := by
  have hsound : ∀ m ∈ processInnerMatches ie target off text,
      InnerEmitted ie target off text m :=
    fun m hm => pimGo_sound ie target off text _ 0 [] [] (by simp) m hm
  refine ⟨hsound, ?_⟩
  intro hT hM hC m hm
  rcases hsound m hm with ⟨r, ⟨li, hx⟩, hemp, hstart, hstop, hval⟩
  refine ⟨r, ⟨li, hx⟩, ?_, hstart⟩
  set v := r.cap1.getD r.matched with hv
  set k0 := findCaptureOffset r.matched v with hk0
  have hbw : beginsWith (r.matched.drop k0) v = true := by
    cases hc1 : r.cap1 with
    | none =>
      have hvm : v = r.matched := by rw [hv, hc1]; rfl
      have hio : idxOfSub v r.matched = some 0 := by
        rw [hvm]
        exact idxOfSub_self r.matched
      have hk00 : k0 = 0 := by rw [hk0, findCaptureOffset, hio]; rfl
      rw [hk00, List.drop_zero, hvm]
      exact beginsWith_self r.matched
    | some c =>
      have hvc : v = c := by rw [hv, hc1]; rfl
      rcases hC li r c hx hc1 with ⟨k, hk⟩
      have hsome := idxOfSub_isSome_of r.matched c k hk
      cases hfi : idxOfSub c r.matched with
      | none => rw [hfi] at hsome; exact absurd hsome (by simp)
      | some kk =>
        have hk0eq : k0 = kk := by rw [hk0, hvc, findCaptureOffset, hfi]; rfl
        rw [hk0eq, hvc]
        exact idxOfSub_begins r.matched c kk hfi
  have hk0le : k0 ≤ r.matched.length := by
    cases hfi : idxOfSub v r.matched with
    | none =>
      have hk00 : k0 = 0 := by rw [hk0, findCaptureOffset, hfi]; rfl
      omega
    | some kk =>
      have := idxOfSub_le_length r.matched v kk hfi
      have hk0eq : k0 = kk := by rw [hk0, findCaptureOffset, hfi]; rfl
      omega
  have hvlen : k0 + v.length ≤ r.matched.length := by
    have h1 := beginsWith_length _ _ hbw
    rw [List.length_drop] at h1
    omega
  have hM' : (target.drop r.index).take r.matched.length = r.matched := by
    have := hM li r hx
    rwa [sliceJs_take_form] at this
  have hMlen : r.index + r.matched.length ≤ target.length := by
    have hlen := congrArg List.length hM'
    simp only [List.length_take, List.length_drop] at hlen
    have hnz : r.matched.length ≠ 0 := fun h0 => hemp (List.length_eq_zero.mp h0)
    omega
  have hT' : (text.drop off).take target.length = target := by
    rwa [sliceJs_take_form] at hT
  rw [hval, hstop, hstart, sliceJs_take_form,
    slice_nested text target off hT' (r.index + k0) v.length (by omega),
    slice_nested target r.matched r.index hM' k0 v.length (by omega)]
  exact (beginsWith_take v (r.matched.drop k0)).mp hbw

/-- The test text of the duplicate-range example: `cn(a(b), cn('z'))`.  The
first outer `cn` match ends at the inner `)`, while its balanced argument
region extends to the final `)`; so the second `cn(...)` call is scanned
twice, once inside the first region and once as its own outer match. -/
def dupRangeText : List Char :=
  "cn(a(b), cn(".data ++ '\'' :: 'z' :: '\'' :: "))".data

/-- C9 counterexample: one locator-entry pass over `cn(a(b), cn('z'))` with
the default `cn` locator pair emits the range [13, 14) (the literal `z`)
twice - once from each outer match - because the `processedRanges` set is
created afresh inside `processInnerMatches`, i.e. per outer match, not per
entry pass. -/
theorem applyRegexEntry_duplicate_range :
    applyRegexEntry cnExec (some quotedExec) dupRangeText =
      [⟨13, 14, ['z']⟩, ⟨13, 14, ['z']⟩] ∧
    ¬ ((applyRegexEntry cnExec (some quotedExec) dupRangeText).map
        (fun m => (m.start, m.stop))).Nodup := by
  refine ⟨by decide, by decide⟩

/-- C9 amended: deduplication by exact range is guaranteed only within a
single `processInnerMatches` call - the inner-pattern scan of one outer
match: the ranges it emits are pairwise distinct for every engine, region and
text.  Across different outer matches of the same entry (or in the
no-inner-pattern fallback path) the same range can be emitted again (see the
counterexample); the caller's `reportedRanges` set performs that wider
deduplication. -/
theorem processInnerMatches_nodup (ie : Engine) (target : List Char) (off : Nat)
    (text : List Char) :
    ((processInnerMatches ie target off text).map (fun m => (m.start, m.stop))).Nodup :=
  pimGo_nodup ie target off text (target.length + 2) 0 [] [] (by simp) (by simp)

end STW
